import Mathlib

/-!
Verification of the density-based crime-spot clustering core.

The repository's `run_dbscan` (src/models/dbscan_model.py) delegates the
clustering algorithm itself to a third-party routine (sklearn DBSCAN) and the
coordinate normalization to sklearn MinMaxScaler; neither body is part of the
repository.  Following the specification (which reconstructs the required
behavior of that routine in section 4.2), the engine and the normalizer are
modelled here from the spec's words, while `run_dbscan` itself,
`get_clustering_metrics`, `calculate_cluster_stats` and `get_cluster_centers`
are translated from the repository's Python source.

Coordinates and the radius are embedded as rationals (the Python code uses
floating point; exact rational arithmetic realizes the spec's "real-valued
coordinates").  The Euclidean-distance comparison `dist p q ≤ eps` is embedded
as `sqDist p q ≤ eps^2`, which is equivalent for `eps ≥ 0` and avoids square
roots.
-/

namespace CrimeSpots

/-- A 2D point: x = longitude, y = latitude (spec section 3). -/
abbrev Point : Type := ℚ × ℚ

/-- A per-point result label: a cluster id `n ≥ 0` or noise (spec section 3).
In the Python source noise is encoded as the integer `-1`. -/
inductive Label where
  | noise : Label
  | id : ℕ → Label
deriving DecidableEq, Repr

/-- The per-point state during a run of the engine: unassigned (not yet
visited), tentatively marked noise, or assigned to a cluster. -/
inductive PtState where
  | unassigned : PtState
  | noiseMark : PtState
  | cluster : ℕ → PtState
deriving DecidableEq, Repr

/-- Does a state carry a definitive cluster id? -/
def PtState.hasCluster : PtState → Bool
  | .cluster _ => true
  | _ => false

/-- The label a completed run reports for a point state.  After a completed
scan no point is `unassigned` (proved below); tentative noise is final noise. -/
def PtState.toLabel : PtState → Label
  | .unassigned => .noise
  | .noiseMark => .noise
  | .cluster c => .id c

/-- Squared Euclidean distance between two points. -/
def sqDist (p q : Point) : ℚ := (p.1 - q.1) ^ 2 + (p.2 - q.2) ^ 2

/-- Modelled from the spec: step 3 of section 4.2 — the ε-neighborhood of the
point at index `i`: all indices `j` (including `i` itself) with Euclidean
distance between `points[i]` and `points[j]` at most `eps`. -/
def nbhd (pts : List Point) (eps : ℚ) (i : ℕ) : List ℕ :=
  (List.range pts.length).filter
    (fun j => decide (sqDist (pts.getD i (0, 0)) (pts.getD j (0, 0)) ≤ eps ^ 2))

/-- Modelled from the spec: a core point has at least `minPts` points
(including itself) within distance ε (spec sections 3 and 4.2 step 4/5). -/
def isCore (pts : List Point) (eps : ℚ) (minPts : ℕ) (i : ℕ) : Prop :=
  minPts ≤ (nbhd pts eps i).length

instance (pts : List Point) (eps : ℚ) (minPts i : ℕ) :
    Decidable (isCore pts eps minPts i) :=
  inferInstanceAs (Decidable (_ ≤ _))

/-- A point index is within ε of some core point (possibly itself).  The final
clustered/noise split is characterized by this predicate (proved below). -/
def nearCore (pts : List Point) (eps : ℚ) (minPts : ℕ) (j : ℕ) : Prop :=
  ∃ q, q < pts.length ∧ isCore pts eps minPts q ∧ j ∈ nbhd pts eps q

instance (pts : List Point) (eps : ℚ) (minPts j : ℕ) :
    Decidable (nearCore pts eps minPts j) :=
  decidable_of_iff
    (∃ q ∈ List.range pts.length, isCore pts eps minPts q ∧ j ∈ nbhd pts eps q)
    (by simp [nearCore, List.mem_range, and_assoc])

/-- Pointwise update of the label-state map. -/
def setLabel (L : ℕ → PtState) (i : ℕ) (s : PtState) : ℕ → PtState :=
  fun j => if j = i then s else L j

/-- Modelled from the spec: section 4.2 step 6 — frontier expansion of the
cluster with id `c`.  The frontier is a queue processed front to back; a popped
index that is unassigned or tentative noise is assigned to cluster `c`; a
popped index that was unassigned and is itself a core point appends its
neighborhood indices not yet queued/assigned to the back of the queue; a popped
index already carrying a cluster id is left unchanged.  `queued` records every
index ever placed on the frontier.  The recursion is driven by explicit fuel;
`none` means the fuel ran out, which never happens for the fuel budget the
engine supplies (proved below). -/
def expandGo (pts : List Point) (eps : ℚ) (minPts c : ℕ) :
    ℕ → (ℕ → PtState) → Finset ℕ → List ℕ → Option (ℕ → PtState)
  | _, L, _, [] => some L
  | 0, _, _, _ :: _ => none
  | fuel + 1, L, queued, k :: rest =>
    match L k with
    | .cluster _ => expandGo pts eps minPts c fuel L queued rest
    | .noiseMark =>
        expandGo pts eps minPts c fuel (setLabel L k (.cluster c)) queued rest
    | .unassigned =>
        let L' := setLabel L k (.cluster c)
        if minPts ≤ (nbhd pts eps k).length then
          let new := (nbhd pts eps k).filter
            (fun j => decide (j ∉ queued) && !(L' j).hasCluster)
          expandGo pts eps minPts c fuel L' (queued ∪ new.toFinset) (rest ++ new)
        else
          expandGo pts eps minPts c fuel L' queued rest

/-- Fuel budget for one frontier expansion; strictly larger than the measure
`|uncovered indices| * (n+1) + |frontier|` at every reachable state. -/
def dbscanFuel (pts : List Point) : ℕ := (pts.length + 1) * (pts.length + 2)

/-- Modelled from the spec: section 4.2 steps 1-8 — the outer scan over point
indices in input order.  An already assigned index is skipped; a non-core
unvisited index is tentatively marked noise; a core unvisited index founds the
next cluster (ids allocated consecutively from 0) and its cluster is grown by
`expandGo`.  Returns the final label state and the number of allocated ids. -/
def dbscanGo (pts : List Point) (eps : ℚ) (minPts : ℕ) :
    List ℕ → (ℕ → PtState) → ℕ → ((ℕ → PtState) × ℕ)
  | [], L, c => (L, c)
  | i :: rest, L, c =>
    match L i with
    | .unassigned =>
        if (nbhd pts eps i).length < minPts then
          dbscanGo pts eps minPts rest (setLabel L i .noiseMark) c
        else
          let nb := nbhd pts eps i
          let L₁ := setLabel L i (.cluster c)
          let L₂ := (expandGo pts eps minPts c (dbscanFuel pts) L₁ nb.toFinset
            (nb.filter (fun j => decide (j ≠ i)))).getD L₁
          dbscanGo pts eps minPts rest L₂ (c + 1)
    | _ => dbscanGo pts eps minPts rest L c

/-- The final label state and cluster count of a complete scan. -/
def finalState (pts : List Point) (eps : ℚ) (minPts : ℕ) :
    (ℕ → PtState) × ℕ :=
  dbscanGo pts eps minPts (List.range pts.length) (fun _ => .unassigned) 0

/-- The label sequence of a complete scan: output position `j` is the label of
`points[j]`. -/
def clusterLabels (pts : List Point) (eps : ℚ) (minPts : ℕ) : List Label :=
  (List.range pts.length).map (fun j => ((finalState pts eps minPts).1 j).toLabel)

/-- Error taxonomy of the engine (spec section 7). -/
inductive ClusterErr where
  | invalidParameter : ClusterErr
deriving DecidableEq, Repr

/-- Modelled from the spec: `cluster(points, eps, minPts) -> Sequence<Label>`
(spec sections 4.2 and 6); fails fast with `InvalidParameter` when `eps ≤ 0`
or `minPts < 1`, otherwise runs the scan and returns one label per point. -/
def cluster (pts : List Point) (eps : ℚ) (minPts : ℕ) :
    Except ClusterErr (List Label) :=
  if eps ≤ 0 ∨ minPts < 1 then .error .invalidParameter
  else .ok (clusterLabels pts eps minPts)

/-- The cluster id carried by a label, if any. -/
def labelId : Label → Option ℕ
  | .noise => none
  | .id n => some n

/-- Number of distinct non-noise cluster ids; source line
`n_clusters = len(set(labels)) - (1 if -1 in labels else 0)`. -/
def nClusters (labels : List Label) : ℕ := (labels.filterMap labelId).dedup.length

/-- Number of noise labels; source line `n_noise = list(labels).count(-1)`. -/
def nNoise (labels : List Label) : ℕ := labels.count .noise

/-- Minimum of a list of rationals (0 for the empty list, which the normalizer
never queries: its input is required non-empty). -/
def listMin : List ℚ → ℚ
  | [] => 0
  | [a] => a
  | a :: b :: rest => min a (listMin (b :: rest))

/-- Maximum of a list of rationals (0 for the empty list). -/
def listMax : List ℚ → ℚ
  | [] => 0
  | [a] => a
  | a :: b :: rest => max a (listMax (b :: rest))

/-- Rescale one coordinate given the observed extrema of its dimension:
`(v - min) / (max - min)`, and `0` when the dimension is degenerate
(`max = min`). -/
def scale01 (mn mx v : ℚ) : ℚ := if mx = mn then 0 else (v - mn) / (mx - mn)

/-- Modelled from the spec: the Coordinate Normalizer (spec section 4.1) —
per dimension independently, map every coordinate `v` to
`(v - min) / (max - min)` over the observed extrema, `0` in the degenerate
case.  The source delegates this to sklearn `MinMaxScaler.fit_transform`,
whose body is not part of the repository. -/
def normalize (pts : List Point) : List Point :=
  let xs := pts.map Prod.fst
  let ys := pts.map Prod.snd
  pts.map (fun p =>
    (scale01 (listMin xs) (listMax xs) p.1, scale01 (listMin ys) (listMax ys) p.2))

/-- Translation of `run_dbscan(df, eps, min_samples)` (src/models/dbscan_model.py
lines 11-31): copy the X,Y columns, normalize the copy, run the clustering on
the normalized copy, and return the labels, the cluster count, the noise count
and the original (unnormalized) coordinates. -/
def run_dbscan (df : List Point) (eps : ℚ) (min_samples : ℕ) :
    Except ClusterErr (List Label × ℕ × ℕ × List Point) :=
  let df_SF := df
  let df_scaled := normalize df_SF
  (cluster df_scaled eps min_samples).map
    (fun labels => (labels, nClusters labels, nNoise labels, df_SF))

/-- The record produced by `get_clustering_metrics` (a Python dict with five
entries). -/
structure ClusteringMetrics where
  n_clusters : ℕ
  n_noise : ℕ
  clustered_points : ℤ
  noise_percentage : ℚ
  clustered_percentage : ℚ
deriving DecidableEq, Repr

/-- Translation of `get_clustering_metrics(labels, total_points)`
(src/models/dbscan_model.py lines 34-48).  The Python body computes
`noise_percentage = (n_noise / total_points) * 100`, which raises
`ZeroDivisionError` when `total_points` is the Python int `0`; the failure is
embedded as `none`. -/
def get_clustering_metrics (labels : List Label) (total_points : ℕ) :
    Option ClusteringMetrics :=
  let nc := nClusters labels
  let nn := nNoise labels
  let clustered : ℤ := (total_points : ℤ) - (nn : ℤ)
  if total_points = 0 then none
  else some
    { n_clusters := nc
      n_noise := nn
      clustered_points := clustered
      noise_percentage := (nn : ℚ) / (total_points : ℚ) * 100
      clustered_percentage := (clustered : ℚ) / (total_points : ℚ) * 100 }

/-- Row/label pairs whose label is not noise; translation of
`df_filtered = df_sample[labels != -1]` together with
`df_filtered['Cluster'] = labels[labels != -1]` (positional alignment of rows
and labels). -/
def filteredRows (df_sample : List Point) (labels : List Label) :
    List (Point × Label) :=
  (df_sample.zip labels).filter (fun r => decide (r.2 ≠ Label.noise))

/-- The distinct cluster ids present in the labels, in increasing order;
translation of `sorted(df_filtered['Cluster'].unique())`. -/
def sortedClusterIds (labels : List Label) : List ℕ :=
  ((labels.filterMap labelId).dedup).mergeSort (fun a b => decide (a ≤ b))

/-- The member points of one cluster; translation of
`cluster_data = df_filtered[df_filtered['Cluster'] == cluster_id]`. -/
def clusterMembers (df_sample : List Point) (labels : List Label) (cid : ℕ) :
    List Point :=
  ((filteredRows df_sample labels).filter
    (fun r => decide (r.2 = Label.id cid))).map Prod.fst

/-- Arithmetic mean of a list of rationals; pandas `Series.mean()`. -/
def listMean (l : List ℚ) : ℚ := l.sum / (l.length : ℚ)

/-- One row of the summary table built by `calculate_cluster_stats`.  The
`Top Crime Type` column (mode of the Category column) concerns a non-spatial
attribute outside the clustering core and is not modelled. -/
structure ClusterStat where
  clusterId : ℕ
  numPoints : ℕ
  centerLat : ℚ
  centerLon : ℚ
deriving DecidableEq, Repr

/-- Translation of `calculate_cluster_stats(df_sample, labels)`
(src/data/processor.py lines 54-71): one row per cluster id present, holding
the member count and the per-coordinate means over the member points (latitude
is the Y column, longitude the X column), using the original coordinates. -/
def calculate_cluster_stats (df_sample : List Point) (labels : List Label) :
    List ClusterStat :=
  (sortedClusterIds labels).map (fun cid =>
    let cd := clusterMembers df_sample labels cid
    { clusterId := cid
      numPoints := cd.length
      centerLat := listMean (cd.map Prod.snd)
      centerLon := listMean (cd.map Prod.fst) })

/-- Translation of `get_cluster_centers(df_sample, labels)`
(src/data/processor.py lines 74-88): the list `[X mean, Y mean]` per cluster id
present, plus the filtered row set. -/
def get_cluster_centers (df_sample : List Point) (labels : List Label) :
    List (ℚ × ℚ) × List (Point × Label) :=
  ((sortedClusterIds labels).map (fun cid =>
      let cd := clusterMembers df_sample labels cid
      (listMean (cd.map Prod.fst), listMean (cd.map Prod.snd))),
   filteredRows df_sample labels)

/-! ### Basic facts about states, labels and neighborhoods -/

theorem PtState.hasCluster_iff {s : PtState} :
    s.hasCluster = true ↔ ∃ c, s = .cluster c := by
  cases s <;> simp [PtState.hasCluster]

@[simp] theorem setLabel_same (L : ℕ → PtState) (i : ℕ) (s : PtState) :
    setLabel L i s i = s := by
  simp [setLabel]

theorem setLabel_other (L : ℕ → PtState) {j i : ℕ} (s : PtState) (h : j ≠ i) :
    setLabel L i s j = L j := by
  simp [setLabel, h]

theorem mem_nbhd_iff {pts : List Point} {eps : ℚ} {i j : ℕ} :
    j ∈ nbhd pts eps i ↔
      j < pts.length ∧ sqDist (pts.getD i (0, 0)) (pts.getD j (0, 0)) ≤ eps ^ 2 := by
  simp [nbhd, List.mem_filter, List.mem_range]

theorem mem_nbhd_lt {pts : List Point} {eps : ℚ} {i j : ℕ}
    (h : j ∈ nbhd pts eps i) : j < pts.length :=
  (mem_nbhd_iff.1 h).1

theorem nbhd_nodup (pts : List Point) (eps : ℚ) (i : ℕ) :
    (nbhd pts eps i).Nodup :=
  (List.nodup_range _).filter _

theorem nbhd_length_le (pts : List Point) (eps : ℚ) (i : ℕ) :
    (nbhd pts eps i).length ≤ pts.length := by
  calc (nbhd pts eps i).length ≤ (List.range pts.length).length :=
        List.length_filter_le _ _
    _ = pts.length := List.length_range _

theorem sqDist_self (p : Point) : sqDist p p = 0 := by
  simp [sqDist]

theorem mem_nbhd_self {pts : List Point} {i : ℕ} (eps : ℚ)
    (h : i < pts.length) : i ∈ nbhd pts eps i := by
  rw [mem_nbhd_iff]
  exact ⟨h, by rw [sqDist_self]; exact sq_nonneg eps⟩

theorem nbhd_mono_eps {pts : List Point} {e₁ e₂ : ℚ} {i j : ℕ}
    (h0 : 0 ≤ e₁) (h12 : e₁ ≤ e₂) (hj : j ∈ nbhd pts e₁ i) :
    j ∈ nbhd pts e₂ i := by
  rw [mem_nbhd_iff] at hj ⊢
  exact ⟨hj.1, le_trans hj.2 (pow_le_pow_left₀ h0 h12 2)⟩

theorem nbhd_length_mono_eps {pts : List Point} {e₁ e₂ : ℚ} {i : ℕ}
    (h0 : 0 ≤ e₁) (h12 : e₁ ≤ e₂) :
    (nbhd pts e₁ i).length ≤ (nbhd pts e₂ i).length := by
  rw [nbhd, nbhd, ← List.countP_eq_length_filter, ← List.countP_eq_length_filter]
  refine List.countP_mono_left (fun j _ hj => ?_)
  simp only [decide_eq_true_eq] at hj ⊢
  exact le_trans hj (pow_le_pow_left₀ h0 h12 2)

theorem isCore_mono_minPts {pts : List Point} {eps : ℚ} {m₁ m₂ i : ℕ}
    (h : m₁ ≤ m₂) (hc : isCore pts eps m₂ i) : isCore pts eps m₁ i :=
  le_trans h hc

theorem isCore_mono_eps {pts : List Point} {e₁ e₂ : ℚ} {m i : ℕ}
    (h0 : 0 ≤ e₁) (h12 : e₁ ≤ e₂) (hc : isCore pts e₁ m i) :
    isCore pts e₂ m i :=
  le_trans hc (nbhd_length_mono_eps h0 h12)

theorem nearCore_mono_minPts {pts : List Point} {eps : ℚ} {m₁ m₂ j : ℕ}
    (h : m₁ ≤ m₂) (hn : nearCore pts eps m₂ j) : nearCore pts eps m₁ j := by
  obtain ⟨q, hq, hc, hm⟩ := hn
  exact ⟨q, hq, isCore_mono_minPts h hc, hm⟩

theorem nearCore_mono_eps {pts : List Point} {e₁ e₂ : ℚ} {m j : ℕ}
    (h0 : 0 ≤ e₁) (h12 : e₁ ≤ e₂) (hn : nearCore pts e₁ m j) :
    nearCore pts e₂ m j := by
  obtain ⟨q, hq, hc, hm⟩ := hn
  exact ⟨q, hq, isCore_mono_eps h0 h12 hc, nbhd_mono_eps h0 h12 hm⟩

/-! ### Label-state evolution -/

/-- Legal evolution of the label state over one run: a definitive cluster
assignment is never changed, and a visited point never becomes unvisited. -/
def StepOK (L L' : ℕ → PtState) : Prop :=
  ∀ j, (∀ c, L j = .cluster c → L' j = .cluster c) ∧
    (L j ≠ .unassigned → L' j ≠ .unassigned)

theorem StepOK_refl (L : ℕ → PtState) : StepOK L L :=
  fun _ => ⟨fun _ h => h, fun h => h⟩

theorem StepOK_trans {L₁ L₂ L₃ : ℕ → PtState}
    (h₁ : StepOK L₁ L₂) (h₂ : StepOK L₂ L₃) : StepOK L₁ L₃ :=
  fun j => ⟨fun c hc => (h₂ j).1 c ((h₁ j).1 c hc),
    fun hu => (h₂ j).2 ((h₁ j).2 hu)⟩

theorem StepOK_set_of_unassigned {L : ℕ → PtState} {i : ℕ}
    (h : L i = .unassigned) (s : PtState) : StepOK L (setLabel L i s) := by
  intro j
  by_cases hj : j = i
  · subst hj
    constructor
    · intro c hc
      rw [h] at hc
      cases hc
    · intro hu
      exact absurd h hu
  · rw [setLabel_other L s hj]
    exact ⟨fun _ hc => hc, fun hu => hu⟩

theorem StepOK_set_noise_cluster {L : ℕ → PtState} {i : ℕ}
    (h : L i = .noiseMark) (c : ℕ) : StepOK L (setLabel L i (.cluster c)) := by
  intro j
  by_cases hj : j = i
  · subst hj
    constructor
    · intro c' hc
      rw [h] at hc
      cases hc
    · intro _
      rw [setLabel_same]
      simp
  · rw [setLabel_other L _ hj]
    exact ⟨fun _ hc => hc, fun hu => hu⟩

theorem StepOK.preserves_hasCluster {L L' : ℕ → PtState} {j : ℕ}
    (h : StepOK L L') (hc : (L j).hasCluster = true) :
    (L' j).hasCluster = true := by
  obtain ⟨c, hcl⟩ := PtState.hasCluster_iff.1 hc
  rw [PtState.hasCluster_iff]
  exact ⟨c, (h j).1 c hcl⟩

/-! ### Frontier expansion lemmas -/

theorem expandGo_stepOK {pts : List Point} {eps : ℚ} {minPts c : ℕ} :
    ∀ (fuel : ℕ) (L : ℕ → PtState) (Q : Finset ℕ) (F : List ℕ)
      (L' : ℕ → PtState),
      expandGo pts eps minPts c fuel L Q F = some L' → StepOK L L' := by
  intro fuel
  induction fuel with
  | zero =>
    intro L Q F L' h
    cases F with
    | nil =>
      rw [expandGo] at h
      cases h
      exact StepOK_refl L
    | cons k rest => exact absurd h (by rw [expandGo]; simp)
  | succ fuel ih =>
    intro L Q F L' h
    cases F with
    | nil =>
      rw [expandGo] at h
      cases h
      exact StepOK_refl L
    | cons k rest =>
      rw [expandGo] at h
      cases hLk : L k with
      | cluster c' =>
        rw [hLk] at h
        exact ih L Q rest L' h
      | noiseMark =>
        rw [hLk] at h
        exact StepOK_trans (StepOK_set_noise_cluster hLk c) (ih _ Q rest L' h)
      | unassigned =>
        rw [hLk] at h
        simp only at h
        by_cases hcore : minPts ≤ (nbhd pts eps k).length
        · rw [if_pos hcore] at h
          exact StepOK_trans (StepOK_set_of_unassigned hLk _) (ih _ _ _ L' h)
        · rw [if_neg hcore] at h
          exact StepOK_trans (StepOK_set_of_unassigned hLk _) (ih _ _ _ L' h)

theorem expandGo_writes {pts : List Point} {eps : ℚ} {minPts c : ℕ} :
    ∀ (fuel : ℕ) (L : ℕ → PtState) (Q : Finset ℕ) (F : List ℕ)
      (L' : ℕ → PtState),
      expandGo pts eps minPts c fuel L Q F = some L' →
      ∀ j, L' j = L j ∨ L' j = .cluster c := by
  intro fuel
  induction fuel with
  | zero =>
    intro L Q F L' h j
    cases F with
    | nil =>
      rw [expandGo] at h
      cases h
      exact Or.inl rfl
    | cons k rest => exact absurd h (by rw [expandGo]; simp)
  | succ fuel ih =>
    intro L Q F L' h j
    cases F with
    | nil =>
      rw [expandGo] at h
      cases h
      exact Or.inl rfl
    | cons k rest =>
      rw [expandGo] at h
      have step :
          ∀ M : ℕ → PtState, (∀ j, M j = L j ∨ M j = PtState.cluster c) →
            (∀ j, L' j = M j ∨ L' j = PtState.cluster c) →
            L' j = L j ∨ L' j = PtState.cluster c := by
        intro M hM hL'
        rcases hL' j with h1 | h1
        · rcases hM j with h2 | h2
          · exact Or.inl (h1.trans h2)
          · exact Or.inr (h1.trans h2)
        · exact Or.inr h1
      have setfacts : ∀ j, setLabel L k (PtState.cluster c) j = L j ∨
          setLabel L k (PtState.cluster c) j = PtState.cluster c := by
        intro j
        by_cases hj : j = k
        · subst hj
          exact Or.inr (setLabel_same L j _)
        · exact Or.inl (setLabel_other L _ hj)
      cases hLk : L k with
      | cluster c' =>
        rw [hLk] at h
        exact ih L Q rest L' h j
      | noiseMark =>
        rw [hLk] at h
        exact step _ setfacts (ih _ Q rest L' h)
      | unassigned =>
        rw [hLk] at h
        simp only at h
        by_cases hcore : minPts ≤ (nbhd pts eps k).length
        · rw [if_pos hcore] at h
          exact step _ setfacts (ih _ _ _ L' h)
        · rw [if_neg hcore] at h
          exact step _ setfacts (ih _ _ _ L' h)

theorem expandGo_isSome {pts : List Point} {eps : ℚ} {minPts c : ℕ} :
    ∀ (fuel : ℕ) (L : ℕ → PtState) (Q : Finset ℕ) (F : List ℕ),
      (Finset.range pts.length \ Q).card * (pts.length + 1) + F.length < fuel →
      (expandGo pts eps minPts c fuel L Q F).isSome = true := by
  intro fuel
  induction fuel with
  | zero =>
    intro L Q F hμ
    exact absurd hμ (Nat.not_lt_zero _)
  | succ fuel ih =>
    intro L Q F hμ
    cases F with
    | nil => rw [expandGo]; rfl
    | cons k rest =>
      rw [expandGo]
      have hsimple :
          (Finset.range pts.length \ Q).card * (pts.length + 1) + rest.length
            < fuel := by
        have hlen : (k :: rest).length = rest.length + 1 := rfl
        rw [hlen] at hμ
        omega
      cases hLk : L k with
      | cluster c' => exact ih L Q rest hsimple
      | noiseMark => exact ih _ Q rest hsimple
      | unassigned =>
        simp only
        by_cases hcore : minPts ≤ (nbhd pts eps k).length
        · rw [if_pos hcore]
          set L₂ := setLabel L k (PtState.cluster c) with hL₂
          set new := (nbhd pts eps k).filter
            (fun j => decide (j ∉ Q) && !(L₂ j).hasCluster) with hnew
          by_cases hne : new = []
          · rw [hne]
            simp only [List.toFinset_nil, Finset.union_empty, List.append_nil]
            exact ih L₂ Q rest hsimple
          · obtain ⟨a, ha⟩ := List.exists_mem_of_ne_nil new hne
            have hamem := List.mem_filter.1 ha
            have haQ : a ∉ Q := by
              have := hamem.2
              simp only [Bool.and_eq_true, decide_eq_true_eq] at this
              exact this.1
            have han : a < pts.length := mem_nbhd_lt hamem.1
            have hsub : Finset.range pts.length \ (Q ∪ new.toFinset) ⊂
                Finset.range pts.length \ Q := by
              refine ⟨Finset.sdiff_subset_sdiff (le_refl _)
                Finset.subset_union_left, ?_⟩
              intro hcon
              have ha1 : a ∈ Finset.range pts.length \ Q :=
                Finset.mem_sdiff.2 ⟨Finset.mem_range.2 han, haQ⟩
              have ha2 := hcon ha1
              rw [Finset.mem_sdiff] at ha2
              exact ha2.2 (Finset.mem_union_right _ (List.mem_toFinset.2 ha))
            have hcard : (Finset.range pts.length \ (Q ∪ new.toFinset)).card + 1 ≤
                (Finset.range pts.length \ Q).card :=
              Finset.card_lt_card hsub
            have hnlen : new.length ≤ pts.length :=
              le_trans (List.length_filter_le _ _) (nbhd_length_le pts eps k)
            refine ih L₂ (Q ∪ new.toFinset) (rest ++ new) ?_
            rw [List.length_append]
            have hmul : ((Finset.range pts.length \ (Q ∪ new.toFinset)).card + 1) *
                (pts.length + 1) ≤
                (Finset.range pts.length \ Q).card * (pts.length + 1) :=
              Nat.mul_le_mul_right _ hcard
            rw [Nat.add_one_mul] at hmul
            have hlen : (k :: rest).length = rest.length + 1 := rfl
            rw [hlen] at hμ
            set A := (Finset.range pts.length \ (Q ∪ new.toFinset)).card *
              (pts.length + 1) with hA
            set B := (Finset.range pts.length \ Q).card * (pts.length + 1) with hB
            omega
        · rw [if_neg hcore]
          exact ih _ Q rest hsimple

theorem hasCluster_setLabel_of {L : ℕ → PtState} {j k c : ℕ}
    (h : (L j).hasCluster = true) :
    (setLabel L k (.cluster c) j).hasCluster = true := by
  by_cases hj : j = k
  · subst hj
    rw [setLabel_same]
    rfl
  · rwa [setLabel_other L _ hj]

theorem hasCluster_setLabel_self (L : ℕ → PtState) (k c : ℕ) :
    (setLabel L k (.cluster c) k).hasCluster = true := by
  rw [setLabel_same]
  rfl

/-- Every point that ends up with a cluster assignment during frontier
expansion is within ε of some core point, provided every frontier entry and
every already-clustered point is. -/
theorem expandGo_sound {pts : List Point} {eps : ℚ} {minPts c : ℕ} :
    ∀ (fuel : ℕ) (L : ℕ → PtState) (Q : Finset ℕ) (F : List ℕ)
      (L' : ℕ → PtState),
      (∀ j ∈ F, nearCore pts eps minPts j) →
      (∀ j, (L j).hasCluster = true → nearCore pts eps minPts j) →
      expandGo pts eps minPts c fuel L Q F = some L' →
      ∀ j, (L' j).hasCluster = true → nearCore pts eps minPts j := by
  intro fuel
  induction fuel with
  | zero =>
    intro L Q F L' HF HL h
    cases F with
    | nil =>
      rw [expandGo] at h
      cases h
      exact HL
    | cons k rest => exact absurd h (by rw [expandGo]; simp)
  | succ fuel ih =>
    intro L Q F L' HF HL h
    cases F with
    | nil =>
      rw [expandGo] at h
      cases h
      exact HL
    | cons k rest =>
      rw [expandGo] at h
      have HFrest : ∀ j ∈ rest, nearCore pts eps minPts j :=
        fun j hj => HF j (List.mem_cons_of_mem k hj)
      have HFk : nearCore pts eps minPts k := HF k (List.mem_cons_self k rest)
      have HLset : ∀ j, (setLabel L k (PtState.cluster c) j).hasCluster = true →
          nearCore pts eps minPts j := by
        intro j hj
        by_cases hjk : j = k
        · subst hjk
          exact HFk
        · rw [setLabel_other L _ hjk] at hj
          exact HL j hj
      cases hLk : L k with
      | cluster c' =>
        rw [hLk] at h
        exact ih L Q rest L' HFrest HL h
      | noiseMark =>
        rw [hLk] at h
        exact ih _ Q rest L' HFrest HLset h
      | unassigned =>
        rw [hLk] at h
        simp only at h
        by_cases hcore : minPts ≤ (nbhd pts eps k).length
        · rw [if_pos hcore] at h
          have hkn : k < pts.length := by
            obtain ⟨q, _, _, hkq⟩ := HFk
            exact mem_nbhd_lt hkq
          refine ih _ _ _ L' ?_ HLset h
          intro j hj
          rcases List.mem_append.1 hj with hj | hj
          · exact HFrest j hj
          · have hjnb := (List.mem_filter.1 hj).1
            exact ⟨k, hkn, hcore, hjnb⟩
        · rw [if_neg hcore] at h
          exact ih _ Q rest L' HFrest HLset h

/-- After a completed frontier expansion, the neighborhood of every clustered
core point is entirely clustered, provided every queued index is on the
frontier or clustered, every clustered core's neighborhood is queued or
clustered, and tentative noise marks sit only on non-core points. -/
theorem expandGo_closed {pts : List Point} {eps : ℚ} {minPts c : ℕ} :
    ∀ (fuel : ℕ) (L : ℕ → PtState) (Q : Finset ℕ) (F : List ℕ)
      (L' : ℕ → PtState),
      (∀ j ∈ Q, j ∈ F ∨ (L j).hasCluster = true) →
      (∀ q, isCore pts eps minPts q → (L q).hasCluster = true →
        ∀ j ∈ nbhd pts eps q, j ∈ Q ∨ (L j).hasCluster = true) →
      (∀ j, L j = .noiseMark → ¬ isCore pts eps minPts j) →
      expandGo pts eps minPts c fuel L Q F = some L' →
      ∀ q, isCore pts eps minPts q → (L' q).hasCluster = true →
        ∀ j ∈ nbhd pts eps q, (L' j).hasCluster = true := by
  intro fuel
  induction fuel with
  | zero =>
    intro L Q F L' HQ HC HN h
    cases F with
    | nil =>
      rw [expandGo] at h
      cases h
      intro q hqcore hqcl j hj
      rcases HC q hqcore hqcl j hj with hjQ | hjc
      · rcases HQ j hjQ with hjF | hjc
        · cases hjF
        · exact hjc
      · exact hjc
    | cons k rest => exact absurd h (by rw [expandGo]; simp)
  | succ fuel ih =>
    intro L Q F L' HQ HC HN h
    cases F with
    | nil =>
      rw [expandGo] at h
      cases h
      intro q hqcore hqcl j hj
      rcases HC q hqcore hqcl j hj with hjQ | hjc
      · rcases HQ j hjQ with hjF | hjc
        · cases hjF
        · exact hjc
      · exact hjc
    | cons k rest =>
      rw [expandGo] at h
      cases hLk : L k with
      | cluster c' =>
        rw [hLk] at h
        refine ih L Q rest L' ?_ HC HN h
        intro j hjQ
        rcases HQ j hjQ with hjF | hjc
        · rcases List.mem_cons.1 hjF with hjk | hjr
          · subst hjk
            exact Or.inr (by rw [hLk]; rfl)
          · exact Or.inl hjr
        · exact Or.inr hjc
      | noiseMark =>
        rw [hLk] at h
        have hnotcore : ¬ isCore pts eps minPts k := HN k hLk
        refine ih (setLabel L k (PtState.cluster c)) Q rest L' ?_ ?_ ?_ h
        · intro j hjQ
          by_cases hjk : j = k
          · subst hjk
            exact Or.inr (hasCluster_setLabel_self L j c)
          · rw [setLabel_other L _ hjk]
            rcases HQ j hjQ with hjF | hjc
            · rcases List.mem_cons.1 hjF with hjk' | hjr
              · exact absurd hjk' hjk
              · exact Or.inl hjr
            · exact Or.inr hjc
        · intro q hqcore hqcl j hj
          by_cases hqk : q = k
          · subst hqk
            exact absurd hqcore hnotcore
          · rw [setLabel_other L _ hqk] at hqcl
            rcases HC q hqcore hqcl j hj with hjQ | hjc
            · exact Or.inl hjQ
            · exact Or.inr (hasCluster_setLabel_of hjc)
        · intro j hj
          by_cases hjk : j = k
          · subst hjk
            rw [setLabel_same] at hj
            cases hj
          · rw [setLabel_other L _ hjk] at hj
            exact HN j hj
      | unassigned =>
        rw [hLk] at h
        simp only at h
        by_cases hcore : minPts ≤ (nbhd pts eps k).length
        · rw [if_pos hcore] at h
          set L₂ := setLabel L k (PtState.cluster c) with hL₂
          set new := (nbhd pts eps k).filter
            (fun j => decide (j ∉ Q) && !(L₂ j).hasCluster) with hnew
          refine ih L₂ (Q ∪ new.toFinset) (rest ++ new) L' ?_ ?_ ?_ h
          · intro j hjQ
            rcases Finset.mem_union.1 hjQ with hjQ | hjn
            · by_cases hjk : j = k
              · subst hjk
                exact Or.inr (hasCluster_setLabel_self L j c)
              · rw [hL₂, setLabel_other L _ hjk]
                rcases HQ j hjQ with hjF | hjc
                · rcases List.mem_cons.1 hjF with hjk' | hjr
                  · exact absurd hjk' hjk
                  · exact Or.inl (List.mem_append_left _ hjr)
                · exact Or.inr hjc
            · exact Or.inl (List.mem_append_right _ (List.mem_toFinset.1 hjn))
          · intro q hqcore hqcl j hj
            by_cases hqk : q = k
            · subst hqk
              by_cases hjc : (L₂ j).hasCluster = true
              · exact Or.inr hjc
              · by_cases hjQ : j ∈ Q
                · exact Or.inl (Finset.mem_union_left _ hjQ)
                · refine Or.inl (Finset.mem_union_right _ (List.mem_toFinset.2 ?_))
                  rw [hnew]
                  refine List.mem_filter.2 ⟨hj, ?_⟩
                  simp only [Bool.and_eq_true, decide_eq_true_eq,
                    Bool.not_eq_true']
                  exact ⟨hjQ, Bool.not_eq_true _ ▸ hjc⟩
            · rw [hL₂, setLabel_other L _ hqk] at hqcl
              rcases HC q hqcore hqcl j hj with hjQ | hjc
              · exact Or.inl (Finset.mem_union_left _ hjQ)
              · exact Or.inr (hasCluster_setLabel_of hjc)
          · intro j hj
            by_cases hjk : j = k
            · subst hjk
              rw [hL₂, setLabel_same] at hj
              cases hj
            · rw [hL₂, setLabel_other L _ hjk] at hj
              exact HN j hj
        · rw [if_neg hcore] at h
          refine ih (setLabel L k (PtState.cluster c)) Q rest L' ?_ ?_ ?_ h
          · intro j hjQ
            by_cases hjk : j = k
            · subst hjk
              exact Or.inr (hasCluster_setLabel_self L j c)
            · rw [setLabel_other L _ hjk]
              rcases HQ j hjQ with hjF | hjc
              · rcases List.mem_cons.1 hjF with hjk' | hjr
                · exact absurd hjk' hjk
                · exact Or.inl hjr
              · exact Or.inr hjc
          · intro q hqcore hqcl j hj
            by_cases hqk : q = k
            · subst hqk
              exact absurd hqcore hcore
            · rw [setLabel_other L _ hqk] at hqcl
              rcases HC q hqcore hqcl j hj with hjQ | hjc
              · exact Or.inl hjQ
              · exact Or.inr (hasCluster_setLabel_of hjc)
          · intro j hj
            by_cases hjk : j = k
            · subst hjk
              rw [setLabel_same] at hj
              cases hj
            · rw [setLabel_other L _ hjk] at hj
              exact HN j hj

/-! ### Outer scan lemmas -/

theorem dbscanGo_stepOK {pts : List Point} {eps : ℚ} {minPts : ℕ} :
    ∀ (I : List ℕ) (L : ℕ → PtState) (c : ℕ),
      StepOK L (dbscanGo pts eps minPts I L c).1 := by
  intro I
  induction I with
  | nil =>
    intro L c
    rw [dbscanGo]
    exact StepOK_refl L
  | cons i rest ih =>
    intro L c
    rw [dbscanGo]
    cases hLi : L i with
    | unassigned =>
      by_cases hlt : (nbhd pts eps i).length < minPts
      · rw [if_pos hlt]
        exact StepOK_trans (StepOK_set_of_unassigned hLi _) (ih _ c)
      · rw [if_neg hlt]
        simp only
        set L₁ := setLabel L i (PtState.cluster c) with hL₁
        have h1 : StepOK L L₁ := StepOK_set_of_unassigned hLi _
        cases hE : expandGo pts eps minPts c (dbscanFuel pts) L₁
          ((nbhd pts eps i).toFinset)
          ((nbhd pts eps i).filter (fun j => decide (j ≠ i))) with
        | none =>
          rw [Option.getD_none]
          exact StepOK_trans h1 (ih _ (c + 1))
        | some L₂ =>
          rw [Option.getD_some]
          exact StepOK_trans h1
            (StepOK_trans (expandGo_stepOK _ _ _ _ _ hE) (ih _ (c + 1)))
    | noiseMark => exact ih L c
    | cluster c' => exact ih L c

/-- The outer-scan invariant: the neighborhood of every clustered core point
is entirely clustered, tentative noise marks sit only on non-core points, and
every clustered point is within ε of a core point. -/
def ScanInv (pts : List Point) (eps : ℚ) (minPts : ℕ) (L : ℕ → PtState) : Prop :=
  (∀ q, isCore pts eps minPts q → (L q).hasCluster = true →
    ∀ j ∈ nbhd pts eps q, (L j).hasCluster = true) ∧
  (∀ j, L j = .noiseMark → ¬ isCore pts eps minPts j) ∧
  (∀ j, (L j).hasCluster = true → nearCore pts eps minPts j)

theorem expandGo_fits {pts : List Point} {eps : ℚ} {minPts c i : ℕ}
    (L₁ : ℕ → PtState) :
    (expandGo pts eps minPts c (dbscanFuel pts) L₁ (nbhd pts eps i).toFinset
      ((nbhd pts eps i).filter (fun j => decide (j ≠ i)))).isSome = true := by
  refine expandGo_isSome _ _ _ _ ?_
  have h1 : (Finset.range pts.length \ (nbhd pts eps i).toFinset).card ≤
      pts.length := by
    calc (Finset.range pts.length \ (nbhd pts eps i).toFinset).card
        ≤ (Finset.range pts.length).card := Finset.card_le_card Finset.sdiff_subset
      _ = pts.length := Finset.card_range _
  have h2 : ((nbhd pts eps i).filter (fun j => decide (j ≠ i))).length ≤
      pts.length :=
    le_trans (List.length_filter_le _ _) (nbhd_length_le pts eps i)
  have h3 : (Finset.range pts.length \ (nbhd pts eps i).toFinset).card *
      (pts.length + 1) ≤ pts.length * (pts.length + 1) :=
    Nat.mul_le_mul_right _ h1
  rw [dbscanFuel]
  nlinarith

theorem dbscanGo_scanInv {pts : List Point} {eps : ℚ} {minPts : ℕ} :
    ∀ (I : List ℕ) (L : ℕ → PtState) (c : ℕ),
      (∀ i ∈ I, i < pts.length) →
      ScanInv pts eps minPts L →
      ScanInv pts eps minPts (dbscanGo pts eps minPts I L c).1 := by
  intro I
  induction I with
  | nil =>
    intro L c _ hInv
    rw [dbscanGo]
    exact hInv
  | cons i rest ih =>
    intro L c hI hInv
    obtain ⟨hclosed, hnoise, hsound⟩ := hInv
    have hin : i < pts.length := hI i (List.mem_cons_self i rest)
    have hIrest : ∀ p ∈ rest, p < pts.length :=
      fun p hp => hI p (List.mem_cons_of_mem i hp)
    rw [dbscanGo]
    cases hLi : L i with
    | noiseMark => exact ih L c hIrest ⟨hclosed, hnoise, hsound⟩
    | cluster c' => exact ih L c hIrest ⟨hclosed, hnoise, hsound⟩
    | unassigned =>
      by_cases hlt : (nbhd pts eps i).length < minPts
      · rw [if_pos hlt]
        refine ih _ c hIrest ⟨?_, ?_, ?_⟩
        · intro q hqcore hqcl j hj
          by_cases hqi : q = i
          · subst hqi
            rw [setLabel_same] at hqcl
            cases hqcl
          · rw [setLabel_other L _ hqi] at hqcl
            have hall := hclosed q hqcore hqcl j hj
            by_cases hji : j = i
            · subst hji
              rw [hLi] at hall
              cases hall
            · rwa [setLabel_other L _ hji]
        · intro j hj
          by_cases hji : j = i
          · subst hji
            exact fun hcore => absurd hcore (Nat.not_le.2 hlt)
          · rw [setLabel_other L _ hji] at hj
            exact hnoise j hj
        · intro j hj
          by_cases hji : j = i
          · subst hji
            rw [setLabel_same] at hj
            cases hj
          · rw [setLabel_other L _ hji] at hj
            exact hsound j hj
      · rw [if_neg hlt]
        simp only
        have hcore : isCore pts eps minPts i := Nat.le_of_not_lt hlt
        set L₁ := setLabel L i (PtState.cluster c) with hL₁
        obtain ⟨L₂, hE⟩ := Option.isSome_iff_exists.1 (expandGo_fits L₁)
        rw [hE, Option.getD_some]
        have hwrites := expandGo_writes _ _ _ _ _ hE
        refine ih L₂ (c + 1) hIrest ⟨?_, ?_, ?_⟩
        · -- closure after expansion, from expandGo_closed
          refine expandGo_closed _ _ _ _ _ ?_ ?_ ?_ hE
          · intro j hjQ
            by_cases hji : j = i
            · subst hji
              exact Or.inr (hasCluster_setLabel_self L j c)
            · refine Or.inl (List.mem_filter.2 ⟨List.mem_toFinset.1 hjQ, ?_⟩)
              simp [hji]
          · intro q hqcore hqcl j hj
            by_cases hqi : q = i
            · subst hqi
              exact Or.inl (List.mem_toFinset.2 hj)
            · rw [hL₁, setLabel_other L _ hqi] at hqcl
              exact Or.inr (hasCluster_setLabel_of (hclosed q hqcore hqcl j hj))
          · intro j hj
            by_cases hji : j = i
            · subst hji
              rw [hL₁, setLabel_same] at hj
              cases hj
            · rw [hL₁, setLabel_other L _ hji] at hj
              exact hnoise j hj
        · -- noise marks still sit on non-core points only
          intro j hj
          rcases hwrites j with hw | hw
          · rw [hj] at hw
            by_cases hji : j = i
            · subst hji
              rw [hL₁, setLabel_same] at hw
              cases hw
            · rw [hL₁, setLabel_other L _ hji] at hw
              exact hnoise j hw.symm
          · rw [hj] at hw
            cases hw
        · -- clustered points are near a core point
          refine expandGo_sound _ _ _ _ _ ?_ ?_ hE
          · intro j hj
            exact ⟨i, hin, hcore, (List.mem_filter.1 hj).1⟩
          · intro j hj
            by_cases hji : j = i
            · subst hji
              exact ⟨j, hin, hcore, mem_nbhd_self eps hin⟩
            · rw [hL₁, setLabel_other L _ hji] at hj
              exact hsound j hj

theorem dbscanGo_total {pts : List Point} {eps : ℚ} {minPts : ℕ} :
    ∀ (I : List ℕ) (L : ℕ → PtState) (c : ℕ) (i : ℕ),
      (i ∈ I ∨ L i ≠ .unassigned) →
      (dbscanGo pts eps minPts I L c).1 i ≠ .unassigned := by
  intro I
  induction I with
  | nil =>
    intro L c i hi
    rw [dbscanGo]
    rcases hi with hi | hi
    · cases hi
    · exact hi
  | cons j rest ih =>
    intro L c i hi
    rw [dbscanGo]
    cases hLj : L j with
    | noiseMark =>
      refine ih L c i ?_
      rcases hi with hi | hi
      · rcases List.mem_cons.1 hi with hij | hir
        · subst hij
          exact Or.inr (by rw [hLj]; simp)
        · exact Or.inl hir
      · exact Or.inr hi
    | cluster c' =>
      refine ih L c i ?_
      rcases hi with hi | hi
      · rcases List.mem_cons.1 hi with hij | hir
        · subst hij
          exact Or.inr (by rw [hLj]; simp)
        · exact Or.inl hir
      · exact Or.inr hi
    | unassigned =>
      by_cases hlt : (nbhd pts eps j).length < minPts
      · rw [if_pos hlt]
        refine ih _ c i ?_
        rcases hi with hi | hi
        · rcases List.mem_cons.1 hi with hij | hir
          · subst hij
            exact Or.inr (by rw [setLabel_same]; simp)
          · exact Or.inl hir
        · refine Or.inr ?_
          by_cases hij : i = j
          · subst hij
            rw [setLabel_same]
            simp
          · rwa [setLabel_other L _ hij]
      · rw [if_neg hlt]
        simp only
        set L₁ := setLabel L j (PtState.cluster c) with hL₁
        obtain ⟨L₂, hE⟩ := Option.isSome_iff_exists.1 (expandGo_fits L₁)
        rw [hE, Option.getD_some]
        have hstep : StepOK L L₂ :=
          StepOK_trans (StepOK_set_of_unassigned hLj _) (expandGo_stepOK _ _ _ _ _ hE)
        refine ih L₂ (c + 1) i ?_
        rcases hi with hi | hi
        · rcases List.mem_cons.1 hi with hij | hir
          · subst hij
            have : L₂ i = PtState.cluster c :=
              (expandGo_stepOK _ _ _ _ _ hE i).1 c (by rw [hL₁, setLabel_same])
            rw [this]
            exact Or.inr (by simp)
          · exact Or.inl hir
        · exact Or.inr ((hstep i).2 hi)

theorem dbscanGo_ids {pts : List Point} {eps : ℚ} {minPts : ℕ} :
    ∀ (I : List ℕ) (L : ℕ → PtState) (c : ℕ),
      (∀ i ∈ I, i < pts.length) →
      (∀ j c', L j = .cluster c' → c' < c) →
      (∀ m, m < c → ∃ j, j < pts.length ∧ L j = .cluster m) →
      (∀ j c', (dbscanGo pts eps minPts I L c).1 j = .cluster c' →
        c' < (dbscanGo pts eps minPts I L c).2) ∧
      (∀ m, m < (dbscanGo pts eps minPts I L c).2 →
        ∃ j, j < pts.length ∧ (dbscanGo pts eps minPts I L c).1 j = .cluster m) := by
  intro I
  induction I with
  | nil =>
    intro L c _ hB hP
    rw [dbscanGo]
    exact ⟨hB, hP⟩
  | cons i rest ih =>
    intro L c hI hB hP
    have hin : i < pts.length := hI i (List.mem_cons_self i rest)
    have hIrest : ∀ p ∈ rest, p < pts.length :=
      fun p hp => hI p (List.mem_cons_of_mem i hp)
    rw [dbscanGo]
    cases hLi : L i with
    | noiseMark => exact ih L c hIrest hB hP
    | cluster c' => exact ih L c hIrest hB hP
    | unassigned =>
      by_cases hlt : (nbhd pts eps i).length < minPts
      · rw [if_pos hlt]
        refine ih _ c hIrest ?_ ?_
        · intro j c' hj
          by_cases hji : j = i
          · subst hji
            rw [setLabel_same] at hj
            cases hj
          · rw [setLabel_other L _ hji] at hj
            exact hB j c' hj
        · intro m hm
          obtain ⟨j0, hj0, hLj0⟩ := hP m hm
          have hj0i : j0 ≠ i := by
            intro hcon
            rw [hcon, hLi] at hLj0
            cases hLj0
          exact ⟨j0, hj0, by rwa [setLabel_other L _ hj0i]⟩
      · rw [if_neg hlt]
        simp only
        set L₁ := setLabel L i (PtState.cluster c) with hL₁
        obtain ⟨L₂, hE⟩ := Option.isSome_iff_exists.1 (expandGo_fits L₁)
        rw [hE, Option.getD_some]
        have hwrites := expandGo_writes _ _ _ _ _ hE
        have hstep := expandGo_stepOK _ _ _ _ _ hE
        refine ih L₂ (c + 1) hIrest ?_ ?_
        · intro j c' hj
          rcases hwrites j with hw | hw
          · rw [hj] at hw
            by_cases hji : j = i
            · subst hji
              rw [hL₁, setLabel_same] at hw
              cases hw
              exact Nat.lt_succ_self c
            · rw [hL₁, setLabel_other L _ hji] at hw
              exact Nat.lt_succ_of_lt (hB j c' hw.symm)
          · rw [hj] at hw
            cases hw
            exact Nat.lt_succ_self c
        · intro m hm
          rcases Nat.lt_succ_iff_lt_or_eq.1 hm with hm | hm
          · obtain ⟨j0, hj0, hLj0⟩ := hP m hm
            have hj0i : j0 ≠ i := by
              intro hcon
              rw [hcon, hLi] at hLj0
              cases hLj0
            refine ⟨j0, hj0, (hstep j0).1 m ?_⟩
            rwa [hL₁, setLabel_other L _ hj0i]
          · subst hm
            exact ⟨i, hin, (hstep i).1 m (by rw [hL₁, setLabel_same])⟩

/-! ### Characterization of a completed scan -/

theorem finalState_ne_unassigned {pts : List Point} {eps : ℚ} {minPts j : ℕ}
    (hj : j < pts.length) :
    (finalState pts eps minPts).1 j ≠ .unassigned :=
  dbscanGo_total _ _ _ j (Or.inl (List.mem_range.2 hj))

theorem finalState_scanInv (pts : List Point) (eps : ℚ) (minPts : ℕ) :
    ScanInv pts eps minPts (finalState pts eps minPts).1 := by
  refine dbscanGo_scanInv _ _ _ (fun i hi => List.mem_range.1 hi) ⟨?_, ?_, ?_⟩
  · intro q _ hqc
    cases hqc
  · intro j hj
    cases hj
  · intro j hj
    cases hj

/-- A point of the input ends the scan marked noise exactly when no core point
(itself included) lies within ε of it. -/
theorem finalState_noise_iff {pts : List Point} {eps : ℚ} {minPts j : ℕ}
    (hj : j < pts.length) :
    (finalState pts eps minPts).1 j = .noiseMark ↔
      ¬ nearCore pts eps minPts j := by
  obtain ⟨hclosed, hnoise, hsound⟩ := finalState_scanInv pts eps minPts
  constructor
  · intro hnm hnear
    obtain ⟨q, hq, hqcore, hjq⟩ := hnear
    cases hLq : (finalState pts eps minPts).1 q with
    | unassigned => exact finalState_ne_unassigned hq hLq
    | noiseMark => exact hnoise q hLq hqcore
    | cluster c =>
      have hcl := hclosed q hqcore (by rw [hLq]; rfl) j hjq
      rw [hnm] at hcl
      cases hcl
  · intro hnn
    cases hLj : (finalState pts eps minPts).1 j with
    | unassigned => exact absurd hLj (finalState_ne_unassigned hj)
    | noiseMark => rfl
    | cluster c => exact absurd (hsound j (by rw [hLj]; rfl)) hnn

/-- The noise count of a completed scan counts exactly the input indices with
no core point within ε. -/
theorem nNoise_clusterLabels (pts : List Point) (eps : ℚ) (minPts : ℕ) :
    nNoise (clusterLabels pts eps minPts) =
      (List.range pts.length).countP
        (fun j => decide (¬ nearCore pts eps minPts j)) := by
  rw [nNoise, clusterLabels, List.count_eq_countP, List.countP_map]
  refine List.countP_congr ?_
  intro j hj
  have hjn : j < pts.length := List.mem_range.1 hj
  obtain ⟨_, _, hsound⟩ := finalState_scanInv pts eps minPts
  simp only [Function.comp_apply, beq_iff_eq, decide_eq_true_eq]
  cases hLj : (finalState pts eps minPts).1 j with
  | unassigned => exact absurd hLj (finalState_ne_unassigned hjn)
  | noiseMark =>
    simp only [PtState.toLabel]
    exact ⟨fun _ => (finalState_noise_iff hjn).1 hLj, fun _ => trivial⟩
  | cluster c =>
    simp only [PtState.toLabel]
    constructor
    · intro hcon
      cases hcon
    · intro hnn
      exact absurd (hsound j (by rw [hLj]; rfl)) hnn

theorem mem_ids_iff {pts : List Point} {eps : ℚ} {minPts m : ℕ} :
    m ∈ (clusterLabels pts eps minPts).filterMap labelId ↔
      ∃ j, j < pts.length ∧ (finalState pts eps minPts).1 j = .cluster m := by
  rw [List.mem_filterMap]
  constructor
  · rintro ⟨l, hl, hid⟩
    obtain ⟨j, hjr, rfl⟩ := List.mem_map.1 hl
    refine ⟨j, List.mem_range.1 hjr, ?_⟩
    cases hLj : (finalState pts eps minPts).1 j with
    | unassigned =>
      rw [hLj] at hid
      cases hid
    | noiseMark =>
      rw [hLj] at hid
      cases hid
    | cluster c =>
      rw [hLj] at hid
      simp only [PtState.toLabel, labelId] at hid
      cases hid
      rfl
  · rintro ⟨j, hj, hLj⟩
    refine ⟨((finalState pts eps minPts).1 j).toLabel,
      List.mem_map.2 ⟨j, List.mem_range.2 hj, rfl⟩, ?_⟩
    rw [hLj]
    rfl

/-- The non-noise cluster ids of a completed scan are exactly
`{0, ..., clusterCount - 1}` for the count of allocated ids. -/
theorem clusterIds_eq_range (pts : List Point) (eps : ℚ) (minPts : ℕ) :
    ((clusterLabels pts eps minPts).filterMap labelId).toFinset =
      Finset.range (finalState pts eps minPts).2 := by
  obtain ⟨hbound, hpres⟩ := @dbscanGo_ids pts eps minPts
    (List.range pts.length) (fun _ => .unassigned) 0
    (fun i hi => List.mem_range.1 hi)
    (fun j c' h => by cases h)
    (fun m hm => absurd hm (Nat.not_lt_zero m))
  ext m
  rw [List.mem_toFinset, mem_ids_iff, Finset.mem_range]
  constructor
  · rintro ⟨j, _, hLj⟩
    exact hbound j m hLj
  · intro hm
    exact hpres m hm

theorem nClusters_clusterLabels (pts : List Point) (eps : ℚ) (minPts : ℕ) :
    nClusters (clusterLabels pts eps minPts) = (finalState pts eps minPts).2 := by
  rw [nClusters, ← List.card_toFinset, clusterIds_eq_range, Finset.card_range]

theorem cluster_ok {pts : List Point} {eps : ℚ} {minPts : ℕ}
    (he : 0 < eps) (hm : 1 ≤ minPts) :
    cluster pts eps minPts = .ok (clusterLabels pts eps minPts) := by
  rw [cluster, if_neg]
  push_neg
  exact ⟨he, hm⟩

/-! ### Claim theorems for the clustering engine -/

/-- C1: for every point sequence and valid parameters (`eps > 0`,
`minPts ≥ 1`), the clustering operation succeeds and returns the label
sequence of the scan, which has the same length as the input (position `j`
holding the label of point `j`), and every entry is either a cluster id
`n ≥ 0` or noise — one label per point. -/
theorem claim_C1_cluster_total (pts : List Point) (eps : ℚ) (minPts : ℕ)
    (he : 0 < eps) (hm : 1 ≤ minPts) :
    cluster pts eps minPts = .ok (clusterLabels pts eps minPts) ∧
    (clusterLabels pts eps minPts).length = pts.length ∧
    (∀ l ∈ clusterLabels pts eps minPts, l = .noise ∨ ∃ m, l = .id m) := by
  refine ⟨cluster_ok he hm, ?_, ?_⟩
  · rw [clusterLabels, List.length_map, List.length_range]
  · intro l hl
    obtain ⟨j, _, rfl⟩ := List.mem_map.1 hl
    cases (finalState pts eps minPts).1 j with
    | unassigned => exact Or.inl rfl
    | noiseMark => exact Or.inl rfl
    | cluster c => exact Or.inr ⟨c, rfl⟩

theorem claim_C1_witness :
    cluster [((0 : ℚ), (0 : ℚ))] 1 1 = .ok (clusterLabels [((0 : ℚ), (0 : ℚ))] 1 1) ∧
    (clusterLabels [((0 : ℚ), (0 : ℚ))] 1 1).length = [((0 : ℚ), (0 : ℚ))].length ∧
    (∀ l ∈ clusterLabels [((0 : ℚ), (0 : ℚ))] 1 1, l = .noise ∨ ∃ m, l = .id m) :=
  claim_C1_cluster_total [((0 : ℚ), (0 : ℚ))] 1 1 (by norm_num) (by norm_num)

/-- C3: with valid parameters, clustering the empty point sequence succeeds
and returns the empty label sequence, whose cluster count and noise count are
both zero. -/
theorem claim_C3_empty_input (eps : ℚ) (minPts : ℕ)
    (he : 0 < eps) (hm : 1 ≤ minPts) :
    cluster [] eps minPts = .ok [] ∧
    nClusters (clusterLabels [] eps minPts) = 0 ∧
    nNoise (clusterLabels [] eps minPts) = 0 := by
  have hlbl : clusterLabels [] eps minPts = [] := by
    simp [clusterLabels]
  refine ⟨?_, ?_, ?_⟩
  · rw [cluster_ok he hm, hlbl]
  · rw [hlbl]
    rfl
  · rw [hlbl]
    rfl

theorem claim_C3_witness :
    cluster [] 1 1 = .ok [] ∧
    nClusters (clusterLabels [] 1 1) = 0 ∧
    nNoise (clusterLabels [] 1 1) = 0 :=
  claim_C3_empty_input 1 1 (by norm_num) (by norm_num)

/-- C4: the clustering operation fails with `InvalidParameter` exactly when
`eps ≤ 0` or `minPts < 1` (fail-fast: the error is returned before any
computation on the points); for valid parameters no such error occurs. -/
theorem claim_C4_invalid_parameter (pts : List Point) (eps : ℚ) (minPts : ℕ) :
    cluster pts eps minPts = .error .invalidParameter ↔
      eps ≤ 0 ∨ minPts < 1 := by
  constructor
  · intro h
    by_contra hcon
    rw [cluster, if_neg hcon] at h
    cases h
  · intro h
    rw [cluster, if_pos h]

/-- C5: with the point sequence and `eps` fixed, raising `minPts` never
decreases the noise count: both runs succeed and the run with the larger
`minPts` reports at least as many noise points. -/
theorem claim_C5_noise_mono_minPts (pts : List Point) (eps : ℚ) (m₁ m₂ : ℕ)
    (he : 0 < eps) (h₁ : 1 ≤ m₁) (h₁₂ : m₁ ≤ m₂) :
    cluster pts eps m₁ = .ok (clusterLabels pts eps m₁) ∧
    cluster pts eps m₂ = .ok (clusterLabels pts eps m₂) ∧
    nNoise (clusterLabels pts eps m₁) ≤ nNoise (clusterLabels pts eps m₂) := by
  refine ⟨cluster_ok he h₁, cluster_ok he (le_trans h₁ h₁₂), ?_⟩
  rw [nNoise_clusterLabels, nNoise_clusterLabels]
  refine List.countP_mono_left ?_
  intro j _ hj
  simp only [decide_eq_true_eq] at hj ⊢
  exact fun hnear => hj (nearCore_mono_minPts h₁₂ hnear)

theorem claim_C5_witness :
    cluster [((0 : ℚ), (0 : ℚ)), ((0 : ℚ), (1 : ℚ))] 1 1 =
      .ok (clusterLabels [((0 : ℚ), (0 : ℚ)), ((0 : ℚ), (1 : ℚ))] 1 1) ∧
    cluster [((0 : ℚ), (0 : ℚ)), ((0 : ℚ), (1 : ℚ))] 1 3 =
      .ok (clusterLabels [((0 : ℚ), (0 : ℚ)), ((0 : ℚ), (1 : ℚ))] 1 3) ∧
    nNoise (clusterLabels [((0 : ℚ), (0 : ℚ)), ((0 : ℚ), (1 : ℚ))] 1 1) ≤
      nNoise (clusterLabels [((0 : ℚ), (0 : ℚ)), ((0 : ℚ), (1 : ℚ))] 1 3) :=
  claim_C5_noise_mono_minPts [((0 : ℚ), (0 : ℚ)), ((0 : ℚ), (1 : ℚ))] 1 1 3
    (by norm_num) (by norm_num) (by norm_num)

/-- C6: with the point sequence and `minPts` fixed, raising `eps` never
increases the noise count: both runs succeed and the run with the larger `eps`
reports at most as many noise points. -/
theorem claim_C6_noise_mono_eps (pts : List Point) (e₁ e₂ : ℚ) (minPts : ℕ)
    (h₁ : 0 < e₁) (h₁₂ : e₁ ≤ e₂) (hm : 1 ≤ minPts) :
    cluster pts e₁ minPts = .ok (clusterLabels pts e₁ minPts) ∧
    cluster pts e₂ minPts = .ok (clusterLabels pts e₂ minPts) ∧
    nNoise (clusterLabels pts e₂ minPts) ≤ nNoise (clusterLabels pts e₁ minPts) := by
  refine ⟨cluster_ok h₁ hm, cluster_ok (lt_of_lt_of_le h₁ h₁₂) hm, ?_⟩
  rw [nNoise_clusterLabels, nNoise_clusterLabels]
  refine List.countP_mono_left ?_
  intro j _ hj
  simp only [decide_eq_true_eq] at hj ⊢
  exact fun hnear => hj (nearCore_mono_eps (le_of_lt h₁) h₁₂ hnear)

theorem claim_C6_witness :
    cluster [((0 : ℚ), (0 : ℚ)), ((0 : ℚ), (1 : ℚ))] 1 2 =
      .ok (clusterLabels [((0 : ℚ), (0 : ℚ)), ((0 : ℚ), (1 : ℚ))] 1 2) ∧
    cluster [((0 : ℚ), (0 : ℚ)), ((0 : ℚ), (1 : ℚ))] 2 2 =
      .ok (clusterLabels [((0 : ℚ), (0 : ℚ)), ((0 : ℚ), (1 : ℚ))] 2 2) ∧
    nNoise (clusterLabels [((0 : ℚ), (0 : ℚ)), ((0 : ℚ), (1 : ℚ))] 2 2) ≤
      nNoise (clusterLabels [((0 : ℚ), (0 : ℚ)), ((0 : ℚ), (1 : ℚ))] 1 2) :=
  claim_C6_noise_mono_eps [((0 : ℚ), (0 : ℚ)), ((0 : ℚ), (1 : ℚ))] 1 2 2
    (by norm_num) (by norm_num) (by norm_num)

/-- C7: for valid parameters the run succeeds and the set of cluster ids
occurring in the result is exactly the contiguous range
`{0, ..., clusterCount - 1}`, where `clusterCount` is the number of distinct
non-noise ids in the result (ids are allocated consecutively from 0 in
discovery order during the scan). -/
theorem claim_C7_ids_contiguous (pts : List Point) (eps : ℚ) (minPts : ℕ)
    (he : 0 < eps) (hm : 1 ≤ minPts) :
    cluster pts eps minPts = .ok (clusterLabels pts eps minPts) ∧
    ((clusterLabels pts eps minPts).filterMap labelId).toFinset =
      Finset.range (nClusters (clusterLabels pts eps minPts)) := by
  refine ⟨cluster_ok he hm, ?_⟩
  rw [nClusters_clusterLabels, clusterIds_eq_range]

theorem claim_C7_witness :
    cluster [((0 : ℚ), (0 : ℚ)), ((0 : ℚ), (1 : ℚ))] 1 1 =
      .ok (clusterLabels [((0 : ℚ), (0 : ℚ)), ((0 : ℚ), (1 : ℚ))] 1 1) ∧
    ((clusterLabels [((0 : ℚ), (0 : ℚ)), ((0 : ℚ), (1 : ℚ))] 1 1).filterMap
        labelId).toFinset =
      Finset.range
        (nClusters (clusterLabels [((0 : ℚ), (0 : ℚ)), ((0 : ℚ), (1 : ℚ))] 1 1)) :=
  claim_C7_ids_contiguous [((0 : ℚ), (0 : ℚ)), ((0 : ℚ), (1 : ℚ))] 1 1
    (by norm_num) (by norm_num)

/-! ### The coordinate normalizer -/

theorem listMin_le : ∀ {l : List ℚ} {v : ℚ}, v ∈ l → listMin l ≤ v := by
  intro l
  induction l with
  | nil =>
    intro v hv
    cases hv
  | cons a rest ih =>
    intro v hv
    cases rest with
    | nil =>
      rcases List.mem_singleton.1 hv with rfl
      rw [listMin]
    | cons b rest' =>
      rw [listMin]
      rcases List.mem_cons.1 hv with rfl | hv'
      · exact min_le_left _ _
      · exact le_trans (min_le_right _ _) (ih hv')

theorem le_listMax : ∀ {l : List ℚ} {v : ℚ}, v ∈ l → v ≤ listMax l := by
  intro l
  induction l with
  | nil =>
    intro v hv
    cases hv
  | cons a rest ih =>
    intro v hv
    cases rest with
    | nil =>
      rcases List.mem_singleton.1 hv with rfl
      rw [listMax]
    | cons b rest' =>
      rw [listMax]
      rcases List.mem_cons.1 hv with rfl | hv'
      · exact le_max_left _ _
      · exact le_trans (ih hv') (le_max_right _ _)

theorem scale01_bounds {mn mx v : ℚ} (h1 : mn ≤ v) (h2 : v ≤ mx) :
    0 ≤ scale01 mn mx v ∧ scale01 mn mx v ≤ 1 := by
  rw [scale01]
  by_cases h : mx = mn
  · rw [if_pos h]
    norm_num
  · rw [if_neg h]
    have hlt : mn < mx := lt_of_le_of_ne (le_trans h1 h2) (Ne.symm h)
    constructor
    · exact div_nonneg (by linarith) (by linarith)
    · rw [div_le_one (by linarith)]
      linarith

/-- C2: for a non-empty point sequence, normalization rescales each coordinate
of each dimension independently through `scale01` (i.e. `(v - min)/(max - min)`
over the per-dimension observed extrema, `0` in the degenerate `max = min`
case), preserving length and order; all produced values lie in `[0, 1]`, and
in a degenerate dimension every produced value is exactly `0`.  The operation
is a total function: it does not fail. -/
theorem claim_C2_normalize (pts : List Point) (_hne : pts ≠ []) :
    (normalize pts).length = pts.length ∧
    normalize pts = pts.map (fun p =>
      (scale01 (listMin (pts.map Prod.fst)) (listMax (pts.map Prod.fst)) p.1,
       scale01 (listMin (pts.map Prod.snd)) (listMax (pts.map Prod.snd)) p.2)) ∧
    (∀ p ∈ normalize pts, (0 ≤ p.1 ∧ p.1 ≤ 1) ∧ (0 ≤ p.2 ∧ p.2 ≤ 1)) ∧
    (listMax (pts.map Prod.fst) = listMin (pts.map Prod.fst) →
      ∀ p ∈ normalize pts, p.1 = 0) ∧
    (listMax (pts.map Prod.snd) = listMin (pts.map Prod.snd) →
      ∀ p ∈ normalize pts, p.2 = 0) := by
  have hmap : normalize pts = pts.map (fun p =>
      (scale01 (listMin (pts.map Prod.fst)) (listMax (pts.map Prod.fst)) p.1,
       scale01 (listMin (pts.map Prod.snd)) (listMax (pts.map Prod.snd)) p.2)) := rfl
  refine ⟨by rw [hmap, List.length_map], hmap, ?_, ?_, ?_⟩
  · intro p hp
    rw [hmap] at hp
    obtain ⟨q, hq, rfl⟩ := List.mem_map.1 hp
    have hx1 : listMin (pts.map Prod.fst) ≤ q.1 :=
      listMin_le (List.mem_map.2 ⟨q, hq, rfl⟩)
    have hx2 : q.1 ≤ listMax (pts.map Prod.fst) :=
      le_listMax (List.mem_map.2 ⟨q, hq, rfl⟩)
    have hy1 : listMin (pts.map Prod.snd) ≤ q.2 :=
      listMin_le (List.mem_map.2 ⟨q, hq, rfl⟩)
    have hy2 : q.2 ≤ listMax (pts.map Prod.snd) :=
      le_listMax (List.mem_map.2 ⟨q, hq, rfl⟩)
    exact ⟨scale01_bounds hx1 hx2, scale01_bounds hy1 hy2⟩
  · intro hdeg p hp
    rw [hmap] at hp
    obtain ⟨q, _, rfl⟩ := List.mem_map.1 hp
    simp only [scale01, if_pos hdeg]
  · intro hdeg p hp
    rw [hmap] at hp
    obtain ⟨q, _, rfl⟩ := List.mem_map.1 hp
    simp only [scale01, if_pos hdeg]

theorem claim_C2_witness :
    (normalize [((0 : ℚ), (0 : ℚ)), ((2 : ℚ), (4 : ℚ))]).length =
      [((0 : ℚ), (0 : ℚ)), ((2 : ℚ), (4 : ℚ))].length ∧
    normalize [((0 : ℚ), (0 : ℚ)), ((2 : ℚ), (4 : ℚ))] =
      [((0 : ℚ), (0 : ℚ)), ((2 : ℚ), (4 : ℚ))].map (fun p =>
        (scale01 (listMin ([((0 : ℚ), (0 : ℚ)), ((2 : ℚ), (4 : ℚ))].map Prod.fst))
          (listMax ([((0 : ℚ), (0 : ℚ)), ((2 : ℚ), (4 : ℚ))].map Prod.fst)) p.1,
         scale01 (listMin ([((0 : ℚ), (0 : ℚ)), ((2 : ℚ), (4 : ℚ))].map Prod.snd))
          (listMax ([((0 : ℚ), (0 : ℚ)), ((2 : ℚ), (4 : ℚ))].map Prod.snd)) p.2)) ∧
    (∀ p ∈ normalize [((0 : ℚ), (0 : ℚ)), ((2 : ℚ), (4 : ℚ))],
      (0 ≤ p.1 ∧ p.1 ≤ 1) ∧ (0 ≤ p.2 ∧ p.2 ≤ 1)) ∧
    (listMax ([((0 : ℚ), (0 : ℚ)), ((2 : ℚ), (4 : ℚ))].map Prod.fst) =
        listMin ([((0 : ℚ), (0 : ℚ)), ((2 : ℚ), (4 : ℚ))].map Prod.fst) →
      ∀ p ∈ normalize [((0 : ℚ), (0 : ℚ)), ((2 : ℚ), (4 : ℚ))], p.1 = 0) ∧
    (listMax ([((0 : ℚ), (0 : ℚ)), ((2 : ℚ), (4 : ℚ))].map Prod.snd) =
        listMin ([((0 : ℚ), (0 : ℚ)), ((2 : ℚ), (4 : ℚ))].map Prod.snd) →
      ∀ p ∈ normalize [((0 : ℚ), (0 : ℚ)), ((2 : ℚ), (4 : ℚ))], p.2 = 0) :=
  claim_C2_normalize [((0 : ℚ), (0 : ℚ)), ((2 : ℚ), (4 : ℚ))] (by simp)

/-! ### The result summarizer -/

theorem clusterMembers_eq : ∀ (df : List Point) (labels : List Label) (cid : ℕ),
    labels.length = df.length →
    clusterMembers df labels cid =
      ((List.range df.length).filter
        (fun i => decide (labels.getD i Label.noise = Label.id cid))).map
        (fun i => df.getD i (0, 0)) := by
  intro df
  induction df with
  | nil =>
    intro labels cid hlen
    rw [List.length_eq_zero.1 hlen]
    rfl
  | cons p df' ih =>
    intro labels cid hlen
    cases labels with
    | nil =>
      rw [List.length_cons] at hlen
      cases hlen
    | cons l ls =>
      have hlen' : ls.length = df'.length := by
        rw [List.length_cons, List.length_cons] at hlen
        omega
      have hrec := ih ls cid hlen'
      rw [clusterMembers, filteredRows] at hrec
      rw [clusterMembers, filteredRows, List.zip_cons_cons, List.filter_cons]
      rw [List.length_cons, List.range_succ_eq_map, List.filter_cons,
        List.filter_map]
      have hcomp1 :
          ((fun i => decide ((l :: ls).getD i Label.noise = Label.id cid)) ∘
            Nat.succ) = fun i => decide (ls.getD i Label.noise = Label.id cid) := by
        funext i
        simp [Function.comp, List.getD_cons_succ]
      have hcomp2 :
          ((fun i => (p :: df').getD i ((0 : ℚ), (0 : ℚ))) ∘ Nat.succ) =
            fun i => df'.getD i ((0 : ℚ), (0 : ℚ)) := by
        funext i
        simp [Function.comp, List.getD_cons_succ]
      by_cases hnoise : l = Label.noise
      · rw [if_neg (by simp [hnoise]),
          if_neg (by simp [List.getD_cons_zero, hnoise]),
          hcomp1, List.map_map, hcomp2, hrec]
      · rw [if_pos (by simp [hnoise])]
        by_cases hl : l = Label.id cid
        · rw [List.filter_cons, if_pos (by simp [hl]),
            if_pos (by simp [List.getD_cons_zero, hl]),
            List.map_cons, List.map_cons, hcomp1, List.map_map, hcomp2, hrec]
          rfl
        · rw [List.filter_cons, if_neg (by simp [hl]),
            if_neg (by simp [List.getD_cons_zero, hl]),
            hcomp1, List.map_map, hcomp2, hrec]

theorem mem_sortedClusterIds {labels : List Label} {cid : ℕ} :
    cid ∈ sortedClusterIds labels ↔ Label.id cid ∈ labels := by
  rw [sortedClusterIds, List.mem_mergeSort, List.mem_dedup, List.mem_filterMap]
  constructor
  · rintro ⟨l, hl, hid⟩
    cases l with
    | noise => cases hid
    | id n =>
      simp only [labelId] at hid
      cases hid
      exact hl
  · intro h
    exact ⟨Label.id cid, h, rfl⟩

theorem clusterMembers_length_pos {df : List Point} {labels : List Label}
    {cid : ℕ} (hlen : labels.length = df.length)
    (hmem : Label.id cid ∈ labels) : 0 < (clusterMembers df labels cid).length := by
  obtain ⟨i, hi, hget⟩ := List.getElem_of_mem hmem
  have hgetD : labels.getD i Label.noise = Label.id cid := by
    rw [List.getD, List.get?_eq_getElem?, List.getElem?_eq_getElem hi,
      Option.getD_some, hget]
  have hidx : i ∈ (List.range df.length).filter
      (fun i => decide (labels.getD i Label.noise = Label.id cid)) := by
    refine List.mem_filter.2 ⟨List.mem_range.2 ?_,
      by simp only [decide_eq_true_eq]; exact hgetD⟩
    rw [← hlen]
    exact hi
  rw [clusterMembers_eq df labels cid hlen]
  exact List.length_pos_of_mem (List.mem_map.2 ⟨i, hidx, rfl⟩)

/-- C8: whenever labels align positionally with the rows (same length), every
row of the summary table reports, for its cluster id, the member count and the
arithmetic mean of each original (unnormalized) coordinate over exactly the
points whose label is that cluster id; the table has one row per cluster id
present, and `get_cluster_centers` reports the same per-cluster means in
`[X mean, Y mean]` form. -/
theorem claim_C8_cluster_stats (df : List Point) (labels : List Label)
    (hlen : labels.length = df.length) :
    (∀ s ∈ calculate_cluster_stats df labels,
      0 < s.numPoints ∧
      s.numPoints = ((List.range df.length).filter
        (fun i => decide (labels.getD i Label.noise = Label.id s.clusterId))).length ∧
      s.centerLon = (((List.range df.length).filter
        (fun i => decide (labels.getD i Label.noise = Label.id s.clusterId))).map
          (fun i => (df.getD i ((0 : ℚ), (0 : ℚ))).1)).sum / (s.numPoints : ℚ) ∧
      s.centerLat = (((List.range df.length).filter
        (fun i => decide (labels.getD i Label.noise = Label.id s.clusterId))).map
          (fun i => (df.getD i ((0 : ℚ), (0 : ℚ))).2)).sum / (s.numPoints : ℚ)) ∧
    (∀ cid : ℕ,
      (∃ s ∈ calculate_cluster_stats df labels, s.clusterId = cid) ↔
        Label.id cid ∈ labels) ∧
    (get_cluster_centers df labels).1 =
      (calculate_cluster_stats df labels).map (fun s => (s.centerLon, s.centerLat)) := by
  refine ⟨?_, ?_, ?_⟩
  · intro s hs
    obtain ⟨cid, hcid, rfl⟩ := List.mem_map.1 hs
    have hmem : Label.id cid ∈ labels := mem_sortedClusterIds.1 hcid
    have hbridge := clusterMembers_eq df labels cid hlen
    simp only
    refine ⟨clusterMembers_length_pos hlen hmem, ?_, ?_, ?_⟩
    · rw [hbridge, List.length_map]
    · rw [listMean, hbridge, List.map_map, List.length_map, List.length_map]
      rfl
    · rw [listMean, hbridge, List.map_map, List.length_map, List.length_map]
      rfl
  · intro cid
    constructor
    · rintro ⟨s, hs, rfl⟩
      obtain ⟨cid', hcid', rfl⟩ := List.mem_map.1 hs
      exact mem_sortedClusterIds.1 hcid'
    · intro h
      exact ⟨_, List.mem_map.2 ⟨cid, mem_sortedClusterIds.2 h, rfl⟩, rfl⟩
  · rw [get_cluster_centers, calculate_cluster_stats, List.map_map]
    rfl

theorem claim_C8_witness :
    (∀ s ∈ calculate_cluster_stats [((0 : ℚ), (0 : ℚ)), ((2 : ℚ), (0 : ℚ))]
        [Label.id 0, Label.id 0],
      0 < s.numPoints ∧
      s.numPoints = ((List.range
          [((0 : ℚ), (0 : ℚ)), ((2 : ℚ), (0 : ℚ))].length).filter
        (fun i => decide ([Label.id 0, Label.id 0].getD i Label.noise =
          Label.id s.clusterId))).length ∧
      s.centerLon = (((List.range
          [((0 : ℚ), (0 : ℚ)), ((2 : ℚ), (0 : ℚ))].length).filter
        (fun i => decide ([Label.id 0, Label.id 0].getD i Label.noise =
          Label.id s.clusterId))).map
          (fun i => ([((0 : ℚ), (0 : ℚ)), ((2 : ℚ), (0 : ℚ))].getD i
            ((0 : ℚ), (0 : ℚ))).1)).sum / (s.numPoints : ℚ) ∧
      s.centerLat = (((List.range
          [((0 : ℚ), (0 : ℚ)), ((2 : ℚ), (0 : ℚ))].length).filter
        (fun i => decide ([Label.id 0, Label.id 0].getD i Label.noise =
          Label.id s.clusterId))).map
          (fun i => ([((0 : ℚ), (0 : ℚ)), ((2 : ℚ), (0 : ℚ))].getD i
            ((0 : ℚ), (0 : ℚ))).2)).sum / (s.numPoints : ℚ)) ∧
    (∀ cid : ℕ,
      (∃ s ∈ calculate_cluster_stats [((0 : ℚ), (0 : ℚ)), ((2 : ℚ), (0 : ℚ))]
          [Label.id 0, Label.id 0], s.clusterId = cid) ↔
        Label.id cid ∈ [Label.id 0, Label.id 0]) ∧
    (get_cluster_centers [((0 : ℚ), (0 : ℚ)), ((2 : ℚ), (0 : ℚ))]
        [Label.id 0, Label.id 0]).1 =
      (calculate_cluster_stats [((0 : ℚ), (0 : ℚ)), ((2 : ℚ), (0 : ℚ))]
        [Label.id 0, Label.id 0]).map (fun s => (s.centerLon, s.centerLat)) :=
  claim_C8_cluster_stats [((0 : ℚ), (0 : ℚ)), ((2 : ℚ), (0 : ℚ))]
    [Label.id 0, Label.id 0] (by simp)

/-- C9 as stated is refuted: on the empty input (`labels = []`,
`total_points = 0`) the Python body of `get_clustering_metrics` raises
`ZeroDivisionError` at `noise_percentage = (n_noise / total_points) * 100`
instead of returning zeros; the failure is embedded as `none`. -/
theorem claim_C9_counterexample : get_clustering_metrics [] 0 = none := rfl

/-- C9 (amended): the summarizer fails exactly when `total_points = 0` — the
empty input included — with a `ZeroDivisionError` from the percentage
computations; for `total_points ≥ 1` it never fails and returns the cluster
count, the noise count, the clustered-point count and the two percentages. -/
theorem claim_C9_metrics (labels : List Label) (total_points : ℕ) :
    (get_clustering_metrics labels total_points = none ↔ total_points = 0) ∧
    (1 ≤ total_points →
      get_clustering_metrics labels total_points = some
        { n_clusters := nClusters labels
          n_noise := nNoise labels
          clustered_points := (total_points : ℤ) - (nNoise labels : ℤ)
          noise_percentage := (nNoise labels : ℚ) / (total_points : ℚ) * 100
          clustered_percentage :=
            (((total_points : ℤ) - (nNoise labels : ℤ) : ℤ) : ℚ) /
              (total_points : ℚ) * 100 }) := by
  constructor
  · constructor
    · intro h
      by_contra hcon
      rw [get_clustering_metrics] at h
      simp only [if_neg hcon] at h
      cases h
    · intro h
      rw [get_clustering_metrics]
      simp only [if_pos h]
  · intro h
    rw [get_clustering_metrics]
    rw [if_neg (by omega)]

theorem claim_C9_witness :
    (get_clustering_metrics [Label.noise] 1 = none ↔ (1 : ℕ) = 0) ∧
    (1 ≤ 1 →
      get_clustering_metrics [Label.noise] 1 = some
        { n_clusters := nClusters [Label.noise]
          n_noise := nNoise [Label.noise]
          clustered_points := ((1 : ℕ) : ℤ) - (nNoise [Label.noise] : ℤ)
          noise_percentage := (nNoise [Label.noise] : ℚ) / ((1 : ℕ) : ℚ) * 100
          clustered_percentage :=
            ((((1 : ℕ) : ℤ) - (nNoise [Label.noise] : ℤ) : ℤ) : ℚ) /
              ((1 : ℕ) : ℚ) * 100 }) :=
  claim_C9_metrics [Label.noise] 1

/-- C10: the embedding of `run_dbscan` is a pure function of its input (the
Python body works on `df[['X','Y']].copy()` and never writes back), and the
coordinate sequence it returns is the original, unnormalized X,Y data:
normalization is applied only to the internal copy handed to the clustering
engine. -/
theorem claim_C10_returns_original_coords (df : List Point) (eps : ℚ)
    (min_samples : ℕ) (he : 0 < eps) (hm : 1 ≤ min_samples) :
    run_dbscan df eps min_samples = .ok
      (clusterLabels (normalize df) eps min_samples,
       nClusters (clusterLabels (normalize df) eps min_samples),
       nNoise (clusterLabels (normalize df) eps min_samples),
       df) := by
  rw [run_dbscan, cluster_ok he hm]
  rfl

theorem claim_C10_witness :
    run_dbscan [((0 : ℚ), (0 : ℚ)), ((3 : ℚ), (4 : ℚ))] 1 1 = .ok
      (clusterLabels (normalize [((0 : ℚ), (0 : ℚ)), ((3 : ℚ), (4 : ℚ))]) 1 1,
       nClusters (clusterLabels (normalize [((0 : ℚ), (0 : ℚ)), ((3 : ℚ), (4 : ℚ))]) 1 1),
       nNoise (clusterLabels (normalize [((0 : ℚ), (0 : ℚ)), ((3 : ℚ), (4 : ℚ))]) 1 1),
       [((0 : ℚ), (0 : ℚ)), ((3 : ℚ), (4 : ℚ))]) :=
  claim_C10_returns_original_coords [((0 : ℚ), (0 : ℚ)), ((3 : ℚ), (4 : ℚ))] 1 1
    (by norm_num) (by norm_num)

end CrimeSpots
